import Mathlib

/-!
Verification of the chess-engine move/color protocol layer
(`src/src/lib.rs`): the `Color`, `Move` and `GameResult` data types, the
`Move::try_from` text grammar, the `Display` implementations, and the
game state machine they feed.  Rust strings are embedded as lists of
characters; byte-level operations (`str::len`, byte slicing) are
modelled explicitly so that slice-boundary behaviour is faithful.
-/

deriving instance DecidableEq for Except

namespace ChessEngine

/-- The color of a piece (src/src/lib.rs, `enum Color`). -/
inductive Color : Type where
  | White : Color
  | Black : Color
deriving DecidableEq, Repr

/-- Logical negation on colors (src/src/lib.rs, `impl Not for Color`):
`!White = Black` and `!Black = White`. -/
def Color.not : Color → Color
  | .White => .Black
  | .Black => .White

/-- Modelled from the spec: `Position` (position.rs is not under src/) — a
validated board coordinate with file ∈ [0,7] and rank ∈ [0,7] (spec §3). -/
structure Position : Type where
  file : Fin 8
  rank : Fin 8
deriving DecidableEq, Repr

/-- Modelled from the spec: `Position::pgn` (position.rs is not under src/) —
notation conversion `"e4" ↔ (file=4, rank=3)`, total for valid two-character
square text and failing otherwise (spec §3, §4.1). -/
def Position.pgn : List Char → Except String Position
  | [f, r] =>
    if hf : 97 ≤ f.toNat ∧ f.toNat ≤ 104 then
      if hr : 49 ≤ r.toNat ∧ r.toNat ≤ 56 then
        .ok ⟨⟨f.toNat - 97, by omega⟩, ⟨r.toNat - 49, by omega⟩⟩
      else .error ("invalid rank " ++ String.mk [r])
    else .error ("invalid file " ++ String.mk [f])
  | s => .error ("invalid square " ++ String.mk s)

/-- Modelled from the spec: the square text of a `Position` (its `Display`),
`(file=4, rank=3) → "e4"` (spec §3, §4.1). -/
def Position.toChars (p : Position) : List Char :=
  [Char.ofNat (97 + p.file.val), Char.ofNat (49 + p.rank.val)]

/-- `Position`'s `Display` output as a Lean string. -/
def Position.displayStr (p : Position) : String :=
  String.mk p.toChars

/-- Modelled from the spec: the closed set of piece kinds (spec §3; piece.rs is
not under src/).  The color of a piece is irrelevant to every property treated
here, so a piece is embedded by its kind. -/
inductive PieceKind : Type where
  | King : PieceKind
  | Queen : PieceKind
  | Rook : PieceKind
  | Bishop : PieceKind
  | Knight : PieceKind
  | Pawn : PieceKind
deriving DecidableEq, Repr

/-- `Piece::is_king` (spec §4.2 helper). -/
def PieceKind.is_king : PieceKind → Bool
  | .King => true
  | _ => false

/-- `Piece::is_pawn` (spec §4.2 helper). -/
def PieceKind.is_pawn : PieceKind → Bool
  | .Pawn => true
  | _ => false

/-- Modelled from the spec: the lower-case English name of a piece kind — the
names accepted by `Piece::try_from` and produced by `Piece::get_name`
(piece.rs is not under src/). -/
def PieceKind.nameChars : PieceKind → List Char
  | .King => ['k', 'i', 'n', 'g']
  | .Queen => ['q', 'u', 'e', 'e', 'n']
  | .Rook => ['r', 'o', 'o', 'k']
  | .Bishop => ['b', 'i', 's', 'h', 'o', 'p']
  | .Knight => ['k', 'n', 'i', 'g', 'h', 't']
  | .Pawn => ['p', 'a', 'w', 'n']

/-- Modelled from the spec: `Piece::get_name` as a string, used by the display
of promotions (src/src/lib.rs line 246). -/
def PieceKind.get_name (k : PieceKind) : String :=
  String.mk k.nameChars

/-- Modelled from the spec: `Piece::try_from(&str)` (piece.rs is not under
src/) — resolve a piece name to a piece, failing on unknown names (spec §6). -/
def PieceKind.tryFromName (w : List Char) : Except String PieceKind :=
  if w = ['k', 'i', 'n', 'g'] then .ok .King
  else if w = ['q', 'u', 'e', 'e', 'n'] then .ok .Queen
  else if w = ['r', 'o', 'o', 'k'] then .ok .Rook
  else if w = ['b', 'i', 's', 'h', 'o', 'p'] then .ok .Bishop
  else if w = ['k', 'n', 'i', 'g', 'h', 't'] then .ok .Knight
  else if w = ['p', 'a', 'w', 'n'] then .ok .Pawn
  else .error ("invalid piece name " ++ String.mk w)

/-- A move that can be applied to a board (src/src/lib.rs, `enum Move`); the
promotion piece is embedded by its kind (spec §3: `Promotion(from, to,
newKind)`). -/
inductive Move : Type where
  | QueenSideCastle : Move
  | KingSideCastle : Move
  | Piece : Position → Position → Move
  | Promotion : Position → Position → PieceKind → Move
  | Resign : Move
deriving DecidableEq, Repr

/-- The outcome of a Rust function returning `Result<α, ε>`: `ok`, `err`, or a
runtime `panicked` — the third constructor models the byte-slice panic that
`Move::try_from` can hit (src/src/lib.rs lines 195-196). -/
inductive RustResult (α ε : Type) : Type where
  | ok : α → RustResult α ε
  | err : ε → RustResult α ε
  | panicked : String → RustResult α ε
deriving DecidableEq, Repr

/-- The whitespace test used by `str::trim` and `str::split_whitespace` in
this embedding. -/
def isWS (c : Char) : Bool := c.isWhitespace

/-- `str::trim`: drop leading and trailing whitespace. -/
def trimChars (l : List Char) : List Char :=
  (l.dropWhile isWS).rdropWhile isWS

/-- Accumulator-passing worker for `splitWS`; `acc` holds the current word
reversed. -/
def splitWSAux : List Char → List Char → List (List Char)
  | [], acc => if acc = [] then [] else [acc.reverse]
  | c :: cs, acc =>
    if isWS c then
      if acc = [] then splitWSAux cs []
      else acc.reverse :: splitWSAux cs []
    else splitWSAux cs (c :: acc)

/-- `str::split_whitespace`: the maximal whitespace-free words, in order. -/
def splitWS (l : List Char) : List (List Char) :=
  splitWSAux l []

/-- `str::len`: the length of the string in UTF-8 bytes. -/
def byteLen (l : List Char) : Nat :=
  (l.map Char.utf8Size).sum

/-- Splitting a Rust string slice at byte offset `n` (`&w[..n]` / `&w[n..]`):
`none` when `n` is not a character boundary, where Rust panics. -/
def splitAtByteOffset : Nat → List Char → Option (List Char × List Char)
  | 0, l => some ([], l)
  | _ + 1, [] => none
  | n + 1, c :: cs =>
    if c.utf8Size ≤ n + 1 then
      (splitAtByteOffset (n + 1 - c.utf8Size) cs).map fun p => (c :: p.1, p.2)
    else none

/-- The resign tokens of `Move::try_from` (src/src/lib.rs line 185):
`"resign"` and `"resigns"`. -/
def resignTokens : List (List Char) :=
  [['r', 'e', 's', 'i', 'g', 'n'], ['r', 'e', 's', 'i', 'g', 'n', 's']]

/-- The queenside-castle tokens of `Move::try_from` (src/src/lib.rs line 186):
`"queenside castle"`, `"castle queenside"`, `"O-O-O"`, `"0-0-0"`, `"o-o-o"`. -/
def queenSideTokens : List (List Char) :=
  [['q', 'u', 'e', 'e', 'n', 's', 'i', 'd', 'e', ' ', 'c', 'a', 's', 't', 'l', 'e'],
   ['c', 'a', 's', 't', 'l', 'e', ' ', 'q', 'u', 'e', 'e', 'n', 's', 'i', 'd', 'e'],
   ['O', '-', 'O', '-', 'O'], ['0', '-', '0', '-', '0'], ['o', '-', 'o', '-', 'o']]

/-- The kingside-castle tokens of `Move::try_from` (src/src/lib.rs line 189):
`"kingside castle"`, `"castle kingside"`, `"O-O"`, `"0-0"`, `"o-o"`. -/
def kingSideTokens : List (List Char) :=
  [['k', 'i', 'n', 'g', 's', 'i', 'd', 'e', ' ', 'c', 'a', 's', 't', 'l', 'e'],
   ['c', 'a', 's', 't', 'l', 'e', ' ', 'k', 'i', 'n', 'g', 's', 'i', 'd', 'e'],
   ['O', '-', 'O'], ['0', '-', '0'], ['o', '-', 'o']]

/-- The fixed-token arms of the `match` in `Move::try_from`
(src/src/lib.rs lines 184-189). -/
def parseTokens (r : List Char) : Option Move :=
  if r ∈ resignTokens then some .Resign
  else if r ∈ queenSideTokens then some .QueenSideCastle
  else if r ∈ kingSideTokens then some .KingSideCastle
  else none

/-- The `format!("invalid move format ...")` error text
(src/src/lib.rs line 209). -/
def invalidFmt (r : List Char) : String :=
  "invalid move format `" ++ String.mk r ++ "`"

/-- The `?` operator: propagate an `Err` from a square or piece subparser into
the caller's result. -/
def tryOp {α β : Type} (e : Except String α) (k : α → RustResult β String) :
    RustResult β String :=
  match e with
  | .ok a => k a
  | .error msg => .err msg

/-- The fallback (`other`) arm of `Move::try_from` (src/src/lib.rs lines
190-211): split into whitespace-separated words; a single word of 4 bytes is
byte-sliced at offset 2 into two squares (Rust panics when byte offset 2 is
not a character boundary); two words are two squares; `<from> to <to>` is a
piece move; `<from> to <to> <pieceName>` is a promotion, rejected when the
piece resolves to a king or a pawn; anything else is an error. -/
def parseWords (r : List Char) : RustResult Move String :=
  match splitWS r with
  | [w] =>
    if byteLen w = 4 then
      match splitAtByteOffset 2 w with
      | some (w1, w2) =>
        tryOp (Position.pgn w1) fun p1 =>
        tryOp (Position.pgn w2) fun p2 => .ok (.Piece p1 p2)
      | none => .panicked "byte index 2 is not a char boundary"
    else .err (invalidFmt r)
  | [w1, w2] =>
    tryOp (Position.pgn w1) fun p1 =>
    tryOp (Position.pgn w2) fun p2 => .ok (.Piece p1 p2)
  | [w1, w2, w3] =>
    if w2 = ['t', 'o'] then
      tryOp (Position.pgn w1) fun p1 =>
      tryOp (Position.pgn w3) fun p2 => .ok (.Piece p1 p2)
    else .err (invalidFmt r)
  | [w1, w2, w3, w4] =>
    if w2 = ['t', 'o'] then
      tryOp (PieceKind.tryFromName w4) fun k =>
      if k.is_king || k.is_pawn then .err "invalid promotion"
      else
        tryOp (Position.pgn w1) fun p1 =>
        tryOp (Position.pgn w3) fun p2 => .ok (.Promotion p1 p2 k)
    else .err (invalidFmt r)
  | _ => .err (invalidFmt r)

/-- `Move::try_from` / `Move::parse` (src/src/lib.rs lines 178-238): trim the
input, match the fixed tokens, otherwise parse whitespace-separated words. -/
def Move.parseChars (repr : List Char) : RustResult Move String :=
  match parseTokens (trimChars repr) with
  | some m => .ok m
  | none => parseWords (trimChars repr)

/-- `Move::parse` on a Lean `String`. -/
def Move.parse (repr : String) : RustResult Move String :=
  Move.parseChars repr.data

/-- `impl Display for Color` (src/src/lib.rs lines 97-108). -/
def Color.display : Color → String
  | .White => "White"
  | .Black => "Black"

/-- `impl Display for Move` (src/src/lib.rs lines 240-253); positions render
through their square text (spec §4.1, §6). -/
def Move.display : Move → String
  | .Piece a b => a.displayStr ++ " to " ++ b.displayStr
  | .Promotion a b k => a.displayStr ++ " to " ++ b.displayStr ++ " " ++ k.get_name
  | .KingSideCastle => "O-O"
  | .QueenSideCastle => "O-O-O"
  | .Resign => "Resign"

/-- The result of a move being played on the board (src/src/lib.rs, `enum
GameResult`); the board stored by `Continuing` is the missing board.rs type,
so the result is parametrised by a board type `β`. -/
inductive GameResult (β : Type) : Type where
  | Continuing : β → GameResult β
  | Victory : Color → GameResult β
  | Stalemate : GameResult β
  | IllegalMove : Move → GameResult β
deriving DecidableEq, Repr

/-- Modelled from the spec: the board legality engine (board.rs is not under
src/); only the operations the game state machine consults (spec §4.4, §4.5)
are kept, as an abstract interface over a board type `β`. -/
structure BoardOps (β : Type) : Type where
  is_legal : β → Move → Color → Bool
  apply_move : β → Move → β
  has_legal_move : β → Color → Bool
  king_in_check : β → Color → Bool
  insufficient_material : β → Bool

/-- Modelled from the spec: the game states of §4.5 — `InProgress(turn)` with
its board, or `Ended` with the terminal result (game.rs is not under src/). -/
inductive GameState (β : Type) : Type where
  | InProgress : β → Color → GameState β
  | Ended : GameResult β → GameState β
deriving DecidableEq, Repr

/-- Modelled from the spec: `Game.apply` (§4.5; game.rs is not under src/).
On an ended game the stored terminal result is returned again (the spec leaves
this choice open).  Resign immediately awards victory to the opponent.  An
illegal move leaves the state untouched and returns `IllegalMove`.  A legal
move is applied and the opponent's position decides checkmate, stalemate,
insufficient material, or continuation. -/
def Game.apply {β : Type} (ops : BoardOps β) (g : GameState β) (m : Move) :
    GameState β × GameResult β :=
  match g with
  | .Ended r => (.Ended r, r)
  | .InProgress b turn =>
    match m with
    | .Resign => (.Ended (.Victory turn.not), .Victory turn.not)
    | mv =>
      if ops.is_legal b mv turn then
        let b2 := ops.apply_move b mv
        if !ops.has_legal_move b2 turn.not then
          if ops.king_in_check b2 turn.not then
            (.Ended (.Victory turn), .Victory turn)
          else
            (.Ended .Stalemate, .Stalemate)
        else if ops.insufficient_material b2 then
          (.Ended .Stalemate, .Stalemate)
        else
          (.InProgress b2 turn.not, .Continuing b2)
      else
        (.InProgress b turn, .IllegalMove mv)

/-- A one-point board interface on which every move is illegal; used to
instantiate the abstract board in concrete game-state-machine checks. -/
def trivialOps : BoardOps Unit where
  is_legal := fun _ _ _ => false
  apply_move := fun b _ => b
  has_legal_move := fun _ _ => false
  king_in_check := fun _ _ => false
  insufficient_material := fun _ => false

/-! ## Helper lemmas about the string utilities -/

/-- Whatever survives at the head of a `dropWhile` fails the predicate. -/
lemma head?_dropWhile_fls {p : Char → Bool} {l : List Char} :
    ∀ c, (l.dropWhile p).head? = some c → p c = false := by
  induction l with
  | nil => intro c h; simp at h
  | cons a as ih =>
    intro c h
    rw [List.dropWhile_cons] at h
    by_cases ha : p a = true
    · exact ih c (by simpa [ha] using h)
    · rw [if_neg ha] at h
      have hac : a = c := by simpa using h
      subst hac
      simpa using ha

/-- `dropWhile` is the identity when the head already fails the predicate. -/
lemma dropWhile_eq_self_of_head {p : Char → Bool} {l : List Char}
    (h : ∀ c, l.head? = some c → p c = false) : l.dropWhile p = l := by
  cases l with
  | nil => rfl
  | cons a as => simp [List.dropWhile_cons, h a rfl]

/-- Trimming is idempotent. -/
lemma trim_idem (l : List Char) : trimChars (trimChars l) = trimChars l := by
  unfold trimChars
  have hB : List.dropWhile isWS ((List.dropWhile isWS l).rdropWhile isWS) =
      (List.dropWhile isWS l).rdropWhile isWS := by
    apply dropWhile_eq_self_of_head
    intro c hc
    obtain ⟨t, ht⟩ := List.rdropWhile_prefix isWS (List.dropWhile isWS l)
    have hA : (List.dropWhile isWS l).head? = some c := by
      rw [← ht]
      cases hB' : (List.dropWhile isWS l).rdropWhile isWS with
      | nil => rw [hB'] at hc; simp at hc
      | cons x xs =>
        rw [hB'] at hc
        simp only [List.head?_cons, Option.some.injEq] at hc
        simp [hc]
    exact head?_dropWhile_fls c hA
  rw [hB, List.rdropWhile_idempotent]

/-- Trimming a list whose first and last characters are not whitespace
changes nothing. -/
lemma trim_eq_self {l : List Char} (hh : ∀ c, l.head? = some c → isWS c = false)
    (hl : ∀ c, l.getLast? = some c → isWS c = false) : trimChars l = l := by
  unfold trimChars
  rw [dropWhile_eq_self_of_head hh]
  apply List.rdropWhile_eq_self_iff.mpr
  intro hne
  have hws := hl (l.getLast hne) (List.getLast?_eq_getLast l hne)
  simp [hws]

/-- Consuming a whitespace-free word moves it whole into the accumulator. -/
lemma splitWSAux_word (w : List Char) (hw : ∀ c ∈ w, isWS c = false) :
    ∀ s acc : List Char, splitWSAux (w ++ s) acc = splitWSAux s (w.reverse ++ acc) := by
  induction w with
  | nil => intro s acc; simp
  | cons c cs ih =>
    intro s acc
    have hc : isWS c = false := hw c (by simp)
    have hcs : ∀ x ∈ cs, isWS x = false := fun x hx => hw x (by simp [hx])
    rw [List.cons_append]
    rw [show splitWSAux (c :: (cs ++ s)) acc = splitWSAux (cs ++ s) (c :: acc) by
      rw [splitWSAux, if_neg (by simp [hc])]]
    rw [ih hcs]
    congr 1
    simp

/-- A whitespace character flushes a nonempty accumulator as a finished word. -/
lemma splitWSAux_stop (s acc : List Char) {c : Char} (hc : isWS c = true)
    (hacc : acc ≠ []) :
    splitWSAux (c :: s) acc = acc.reverse :: splitWSAux s [] := by
  rw [splitWSAux]
  simp [hc, hacc]

/-- At the end of input a nonempty accumulator is the last word. -/
lemma splitWSAux_end (acc : List Char) (h : acc ≠ []) :
    splitWSAux [] acc = [acc.reverse] := by
  rw [splitWSAux]
  simp [h]

/-- A single whitespace-free word splits into itself. -/
lemma splitWS_word (w : List Char) (hne : w ≠ [])
    (hw : ∀ c ∈ w, isWS c = false) : splitWS w = [w] := by
  have h := splitWSAux_word w hw [] []
  rw [List.append_nil] at h
  rw [splitWS, h, List.append_nil, splitWSAux_end _ (by simp [hne]),
    List.reverse_reverse]

/-- A word followed by a space peels off as the first word of the split. -/
lemma splitWS_cons_word (w rest : List Char) (hne : w ≠ [])
    (hw : ∀ c ∈ w, isWS c = false) :
    splitWS (w ++ ' ' :: rest) = w :: splitWS rest := by
  have h := splitWSAux_word w hw (' ' :: rest) []
  rw [List.append_nil] at h
  rw [splitWS, h, splitWSAux_stop _ _ (by decide) (by simp [hne]),
    List.reverse_reverse, ← splitWS]

/-- Heads and second elements distinguish cons lists. -/
lemma second_ne {c1 c2 d1 d2 : Char} {t s : List Char} (h : c2 ≠ d2) :
    c1 :: c2 :: t ≠ d1 :: d2 :: s := by
  intro he
  injection he with _ he2
  injection he2 with he2 _
  exact h he2

/-- A character with a digit code `'1'..'8'` differs from any character whose
code lies outside that band. -/
lemma digit_ne {c : Char} (h1 : 49 ≤ c.toNat) (h2 : c.toNat ≤ 56) {d : Char}
    (hd : d.toNat < 49 ∨ 56 < d.toNat) : c ≠ d := by
  intro he
  subst he
  rcases hd with hd | hd <;> omega

/-- No fixed token of `Move::try_from` has a digit `'1'..'8'` as its second
character, so any input whose second character is such a digit falls through
to the word parser. -/
lemma parseTokens_eq_none {c1 c2 : Char} (t : List Char)
    (h1 : 49 ≤ c2.toNat) (h2 : c2.toNat ≤ 56) :
    parseTokens (c1 :: c2 :: t) = none := by
  have hne : ∀ x ∈ resignTokens ++ queenSideTokens ++ kingSideTokens,
      c1 :: c2 :: t ≠ x := by
    intro x hx
    fin_cases hx <;> exact second_ne (digit_ne h1 h2 (by decide))
  have m1 : (c1 :: c2 :: t) ∉ resignTokens := fun hm =>
    hne _ (by simp [List.mem_append, hm]) rfl
  have m2 : (c1 :: c2 :: t) ∉ queenSideTokens := fun hm =>
    hne _ (by simp [List.mem_append, hm]) rfl
  have m3 : (c1 :: c2 :: t) ∉ kingSideTokens := fun hm =>
    hne _ (by simp [List.mem_append, hm]) rfl
  simp [parseTokens, m1, m2, m3]

/-- Splitting two one-byte characters off at byte offset 2. -/
lemma splitAtByteOffset_two {c1 c2 : Char} (rest : List Char)
    (h1 : c1.utf8Size = 1) (h2 : c2.utf8Size = 1) :
    splitAtByteOffset 2 (c1 :: c2 :: rest) = some ([c1, c2], rest) := by
  rw [show (2 : Nat) = 1 + 1 from rfl, splitAtByteOffset]
  simp only [h1]
  norm_num
  rw [show (1 : Nat) = 0 + 1 from rfl, splitAtByteOffset]
  simp [h2, splitAtByteOffset]

/-! ## Pointwise facts about square characters, by finite check -/

/-- The file character of any position is a lower-case letter `a..h`: it is
not whitespace, one UTF-8 byte wide, and recognised by `Position::pgn`. -/
lemma fileChar_facts : ∀ f : Fin 8,
    isWS (Char.ofNat (97 + f.val)) = false ∧
    (Char.ofNat (97 + f.val)).utf8Size = 1 := by decide

/-- The rank character of any position is a digit `1..8`: not whitespace, one
UTF-8 byte wide, with a code in `[49, 56]`. -/
lemma rankChar_facts : ∀ r : Fin 8,
    isWS (Char.ofNat (49 + r.val)) = false ∧
    (Char.ofNat (49 + r.val)).utf8Size = 1 ∧
    49 ≤ (Char.ofNat (49 + r.val)).toNat ∧ (Char.ofNat (49 + r.val)).toNat ≤ 56 := by
  decide

/-- `Position::pgn` inverts the square text of every position. -/
lemma pgn_toChars : ∀ f r : Fin 8,
    Position.pgn [Char.ofNat (97 + f.val), Char.ofNat (49 + r.val)] =
      .ok ⟨f, r⟩ := by decide

/-- Parsing a packed string is parsing its character list. -/
lemma parse_mk (l : List Char) : Move.parse (String.mk l) = Move.parseChars l :=
  rfl

/-- The last element of a cons list with a nonempty tail is the tail's. -/
lemma getLast?_cons_ne (c : Char) {l : List Char} (h : l ≠ []) :
    (c :: l).getLast? = l.getLast? := by
  cases l with
  | nil => exact absurd rfl h
  | cons x xs => exact List.getLast?_cons_cons

/-- Evaluating `Move::try_from` on the four-token promotion shape
`<from> to <to> <pieceName>`: the word split isolates the two squares and the
name, the squares parse back to the positions, and the result is the
promotion gated by the king/pawn rejection, for any whitespace-free
nonempty name word. -/
lemma parseChars_promotion (fa ra fb rb : Fin 8) (nm : List Char)
    (hne : nm ≠ []) (hws : ∀ c ∈ nm, isWS c = false)
    (hlast : ∀ c, nm.getLast? = some c → isWS c = false) :
    Move.parseChars (Char.ofNat (97 + fa.val) :: Char.ofNat (49 + ra.val) ::
        ' ' :: 't' :: 'o' :: ' ' :: Char.ofNat (97 + fb.val) ::
        Char.ofNat (49 + rb.val) :: ' ' :: nm) =
      tryOp (PieceKind.tryFromName nm) fun k =>
        if k.is_king || k.is_pawn then .err "invalid promotion"
        else .ok (.Promotion ⟨fa, ra⟩ ⟨fb, rb⟩ k) := by
  obtain ⟨hwf1, hsf1⟩ := fileChar_facts fa
  obtain ⟨hwr1, hsr1, hlo1, hhi1⟩ := rankChar_facts ra
  obtain ⟨hwf2, hsf2⟩ := fileChar_facts fb
  obtain ⟨hwr2, hsr2, hlo2, hhi2⟩ := rankChar_facts rb
  have ht : trimChars (Char.ofNat (97 + fa.val) :: Char.ofNat (49 + ra.val) ::
      ' ' :: 't' :: 'o' :: ' ' :: Char.ofNat (97 + fb.val) ::
      Char.ofNat (49 + rb.val) :: ' ' :: nm) =
      Char.ofNat (97 + fa.val) :: Char.ofNat (49 + ra.val) ::
      ' ' :: 't' :: 'o' :: ' ' :: Char.ofNat (97 + fb.val) ::
      Char.ofNat (49 + rb.val) :: ' ' :: nm := by
    apply trim_eq_self
    · intro c hc
      simp only [List.head?_cons, Option.some.injEq] at hc
      rw [← hc]; exact hwf1
    · intro c hc
      rw [getLast?_cons_ne _ (by simp), getLast?_cons_ne _ (by simp),
        getLast?_cons_ne _ (by simp), getLast?_cons_ne _ (by simp),
        getLast?_cons_ne _ (by simp), getLast?_cons_ne _ (by simp),
        getLast?_cons_ne _ (by simp), getLast?_cons_ne _ (by simp),
        getLast?_cons_ne _ hne] at hc
      exact hlast c hc
  have h4 := splitWS_word nm hne hws
  have h3 := splitWS_cons_word
    [Char.ofNat (97 + fb.val), Char.ofNat (49 + rb.val)] nm (by simp)
    (by intro c hc; fin_cases hc <;> assumption)
  have h2 := splitWS_cons_word ['t', 'o']
    (Char.ofNat (97 + fb.val) :: Char.ofNat (49 + rb.val) :: ' ' :: nm)
    (by simp) (by decide)
  have h1 := splitWS_cons_word
    [Char.ofNat (97 + fa.val), Char.ofNat (49 + ra.val)]
    ('t' :: 'o' :: ' ' :: Char.ofNat (97 + fb.val) ::
      Char.ofNat (49 + rb.val) :: ' ' :: nm)
    (by simp) (by intro c hc; fin_cases hc <;> assumption)
  simp only [List.cons_append, List.nil_append] at h1 h2 h3
  unfold Move.parseChars
  rw [ht, parseTokens_eq_none _ hlo1 hhi1]
  show parseWords _ = _
  unfold parseWords
  rw [h1, h2, h3, h4]
  show (if _ = _ then _ else _) = _
  rw [if_pos rfl]
  simp only [pgn_toChars, tryOp]

/-- Packed strings append by appending their character lists. -/
lemma mk_append (x y : List Char) :
    String.mk x ++ String.mk y = String.mk (x ++ y) := rfl

/-! ## The claims -/

/-- Claim C1: on an in-progress game, applying a syntactically valid non-resign
move that the board rules reject returns `IllegalMove` carrying exactly the
move that was passed in, and the game state — board and turn — is unchanged,
so the caller may retry; no error or exception arises. -/
theorem apply_illegal_move_leaves_state {β : Type} (ops : BoardOps β) (b : β)
    (t : Color) (m : Move) (hm : m ≠ Move.Resign)
    (hl : ops.is_legal b m t = false) :
    Game.apply ops (.InProgress b t) m = (.InProgress b t, .IllegalMove m) := by
  cases m <;> simp_all [Game.apply]

/-- Witness for C1 at a concrete board interface, state and move. -/
theorem apply_illegal_move_leaves_state_witness :
    Game.apply trivialOps (.InProgress () Color.White) .KingSideCastle =
      (.InProgress () Color.White, .IllegalMove .KingSideCastle) :=
  apply_illegal_move_leaves_state trivialOps () Color.White .KingSideCastle
    (by decide) rfl

/-- Claim C2: `Move::parse` is NOT total — the evaluation of the code at the
input `"aßb"` (a single word of four UTF-8 bytes whose byte offset 2 falls
inside the two-byte character `'ß'`) reaches the byte slice
`&words[0][..2]` (src/src/lib.rs line 195), which panics in Rust because
byte index 2 is not a character boundary; the result is neither `Ok` nor
`Err`. -/
theorem parse_panics_on_unaligned_bytes :
    Move.parse "aßb" = .panicked "byte index 2 is not a char boundary" := by
  decide

/-- Claim C3: each of the five queenside tokens parses to `QueenSideCastle`,
each of the five kingside tokens to `KingSideCastle`, and `"resign"` and
`"resigns"` to `Resign`. -/
theorem parse_fixed_tokens :
    Move.parse "O-O-O" = .ok .QueenSideCastle ∧
    Move.parse "0-0-0" = .ok .QueenSideCastle ∧
    Move.parse "o-o-o" = .ok .QueenSideCastle ∧
    Move.parse "castle queenside" = .ok .QueenSideCastle ∧
    Move.parse "queenside castle" = .ok .QueenSideCastle ∧
    Move.parse "O-O" = .ok .KingSideCastle ∧
    Move.parse "0-0" = .ok .KingSideCastle ∧
    Move.parse "o-o" = .ok .KingSideCastle ∧
    Move.parse "castle kingside" = .ok .KingSideCastle ∧
    Move.parse "kingside castle" = .ok .KingSideCastle ∧
    Move.parse "resign" = .ok .Resign ∧
    Move.parse "resigns" = .ok .Resign := by
  decide

/-- Claim C4: for every pair of squares, the packed four-character form, the
space-separated form, and the `<from> to <to>` form all parse to
`Piece(from, to)`. -/
theorem parse_square_pair_shapes (a b : Position) :
    Move.parse (String.mk (a.toChars ++ b.toChars)) = .ok (.Piece a b) ∧
    Move.parse (String.mk (a.toChars ++ ' ' :: b.toChars)) = .ok (.Piece a b) ∧
    Move.parse (String.mk (a.toChars ++ ' ' :: 't' :: 'o' :: ' ' :: b.toChars)) =
      .ok (.Piece a b) := by
  obtain ⟨fa, ra⟩ := a
  obtain ⟨fb, rb⟩ := b
  obtain ⟨hwf1, hsf1⟩ := fileChar_facts fa
  obtain ⟨hwr1, hsr1, hlo1, hhi1⟩ := rankChar_facts ra
  obtain ⟨hwf2, hsf2⟩ := fileChar_facts fb
  obtain ⟨hwr2, hsr2, hlo2, hhi2⟩ := rankChar_facts rb
  refine ⟨?_, ?_, ?_⟩
  · rw [parse_mk]
    simp only [Position.toChars, List.cons_append, List.nil_append]
    have ht : trimChars [Char.ofNat (97 + fa.val), Char.ofNat (49 + ra.val),
        Char.ofNat (97 + fb.val), Char.ofNat (49 + rb.val)] =
        [Char.ofNat (97 + fa.val), Char.ofNat (49 + ra.val),
        Char.ofNat (97 + fb.val), Char.ofNat (49 + rb.val)] := by
      apply trim_eq_self
      · intro c hc
        simp only [List.head?_cons, Option.some.injEq] at hc
        rw [← hc]; exact hwf1
      · intro c hc
        simp only [List.getLast?_cons_cons, List.getLast?_singleton,
          Option.some.injEq] at hc
        rw [← hc]; exact hwr2
    have hs : splitWS [Char.ofNat (97 + fa.val), Char.ofNat (49 + ra.val),
        Char.ofNat (97 + fb.val), Char.ofNat (49 + rb.val)] =
        [[Char.ofNat (97 + fa.val), Char.ofNat (49 + ra.val),
        Char.ofNat (97 + fb.val), Char.ofNat (49 + rb.val)]] := by
      apply splitWS_word _ (by simp)
      intro c hc
      fin_cases hc <;> assumption
    unfold Move.parseChars
    rw [ht, parseTokens_eq_none _ hlo1 hhi1]
    show parseWords _ = _
    unfold parseWords
    rw [hs]
    show (if byteLen _ = 4 then _ else _) = _
    rw [if_pos (by simp [byteLen, hsf1, hsr1, hsf2, hsr2])]
    rw [splitAtByteOffset_two _ hsf1 hsr1]
    show tryOp (Position.pgn _) _ = _
    rw [pgn_toChars fa ra]
    show tryOp (Position.pgn _) _ = _
    rw [pgn_toChars fb rb]
    rfl
  · rw [parse_mk]
    simp only [Position.toChars, List.cons_append, List.nil_append]
    have ht : trimChars [Char.ofNat (97 + fa.val), Char.ofNat (49 + ra.val), ' ',
        Char.ofNat (97 + fb.val), Char.ofNat (49 + rb.val)] =
        [Char.ofNat (97 + fa.val), Char.ofNat (49 + ra.val), ' ',
        Char.ofNat (97 + fb.val), Char.ofNat (49 + rb.val)] := by
      apply trim_eq_self
      · intro c hc
        simp only [List.head?_cons, Option.some.injEq] at hc
        rw [← hc]; exact hwf1
      · intro c hc
        simp only [List.getLast?_cons_cons, List.getLast?_singleton,
          Option.some.injEq] at hc
        rw [← hc]; exact hwr2
    have h2 := splitWS_word [Char.ofNat (97 + fb.val), Char.ofNat (49 + rb.val)]
      (by simp) (by intro c hc; fin_cases hc <;> assumption)
    have h1 := splitWS_cons_word [Char.ofNat (97 + fa.val), Char.ofNat (49 + ra.val)]
      [Char.ofNat (97 + fb.val), Char.ofNat (49 + rb.val)]
      (by simp) (by intro c hc; fin_cases hc <;> assumption)
    simp only [List.cons_append, List.nil_append] at h1
    unfold Move.parseChars
    rw [ht, parseTokens_eq_none _ hlo1 hhi1]
    show parseWords _ = _
    unfold parseWords
    rw [h1, h2]
    show tryOp (Position.pgn _) _ = _
    rw [pgn_toChars fa ra]
    show tryOp (Position.pgn _) _ = _
    rw [pgn_toChars fb rb]
    rfl
  · rw [parse_mk]
    simp only [Position.toChars, List.cons_append, List.nil_append]
    have ht : trimChars [Char.ofNat (97 + fa.val), Char.ofNat (49 + ra.val), ' ',
        't', 'o', ' ', Char.ofNat (97 + fb.val), Char.ofNat (49 + rb.val)] =
        [Char.ofNat (97 + fa.val), Char.ofNat (49 + ra.val), ' ',
        't', 'o', ' ', Char.ofNat (97 + fb.val), Char.ofNat (49 + rb.val)] := by
      apply trim_eq_self
      · intro c hc
        simp only [List.head?_cons, Option.some.injEq] at hc
        rw [← hc]; exact hwf1
      · intro c hc
        simp only [List.getLast?_cons_cons, List.getLast?_singleton,
          Option.some.injEq] at hc
        rw [← hc]; exact hwr2
    have h3 := splitWS_word [Char.ofNat (97 + fb.val), Char.ofNat (49 + rb.val)]
      (by simp) (by intro c hc; fin_cases hc <;> assumption)
    have h2 := splitWS_cons_word ['t', 'o']
      [Char.ofNat (97 + fb.val), Char.ofNat (49 + rb.val)] (by simp) (by decide)
    have h1 := splitWS_cons_word [Char.ofNat (97 + fa.val), Char.ofNat (49 + ra.val)]
      ('t' :: 'o' :: ' ' :: [Char.ofNat (97 + fb.val), Char.ofNat (49 + rb.val)])
      (by simp) (by intro c hc; fin_cases hc <;> assumption)
    simp only [List.cons_append, List.nil_append] at h1 h2
    unfold Move.parseChars
    rw [ht, parseTokens_eq_none _ hlo1 hhi1]
    show parseWords _ = _
    unfold parseWords
    rw [h1, h2, h3]
    show (if _ = _ then _ else _) = _
    rw [if_pos rfl]
    show tryOp (Position.pgn _) _ = _
    rw [pgn_toChars fa ra]
    show tryOp (Position.pgn _) _ = _
    rw [pgn_toChars fb rb]
    rfl

/-- Claim C5: the four-token form `<from> to <to> <pieceName>` parses to
`Promotion(from, to, piece)` when the piece name resolves to a piece that is
neither a king nor a pawn, and is rejected at parse time with the
`"invalid promotion"` error when it resolves to a king or a pawn. -/
theorem parse_promotion_shape (a b : Position) (k : PieceKind) :
    Move.parse (String.mk (a.toChars ++ ' ' :: 't' :: 'o' :: ' ' ::
        (b.toChars ++ ' ' :: k.nameChars))) =
      if k.is_king || k.is_pawn then .err "invalid promotion"
      else .ok (.Promotion a b k) := by
  obtain ⟨fa, ra⟩ := a
  obtain ⟨fb, rb⟩ := b
  cases k
  case King =>
    rw [parse_mk]
    simp only [Position.toChars, PieceKind.nameChars, List.cons_append,
      List.nil_append]
    rw [parseChars_promotion fa ra fb rb ['k', 'i', 'n', 'g'] (by simp)
      (by decide) (by intro c hc; simp at hc; subst hc; decide)]
    rfl
  case Queen =>
    rw [parse_mk]
    simp only [Position.toChars, PieceKind.nameChars, List.cons_append,
      List.nil_append]
    rw [parseChars_promotion fa ra fb rb ['q', 'u', 'e', 'e', 'n'] (by simp)
      (by decide) (by intro c hc; simp at hc; subst hc; decide)]
    rfl
  case Rook =>
    rw [parse_mk]
    simp only [Position.toChars, PieceKind.nameChars, List.cons_append,
      List.nil_append]
    rw [parseChars_promotion fa ra fb rb ['r', 'o', 'o', 'k'] (by simp)
      (by decide) (by intro c hc; simp at hc; subst hc; decide)]
    rfl
  case Bishop =>
    rw [parse_mk]
    simp only [Position.toChars, PieceKind.nameChars, List.cons_append,
      List.nil_append]
    rw [parseChars_promotion fa ra fb rb ['b', 'i', 's', 'h', 'o', 'p'] (by simp)
      (by decide) (by intro c hc; simp at hc; subst hc; decide)]
    rfl
  case Knight =>
    rw [parse_mk]
    simp only [Position.toChars, PieceKind.nameChars, List.cons_append,
      List.nil_append]
    rw [parseChars_promotion fa ra fb rb ['k', 'n', 'i', 'g', 'h', 't'] (by simp)
      (by decide) (by intro c hc; simp at hc; subst hc; decide)]
    rfl
  case Pawn =>
    rw [parse_mk]
    simp only [Position.toChars, PieceKind.nameChars, List.cons_append,
      List.nil_append]
    rw [parseChars_promotion fa ra fb rb ['p', 'a', 'w', 'n'] (by simp)
      (by decide) (by intro c hc; simp at hc; subst hc; decide)]
    rfl

/-- Claim C6: negation swaps the two colors, and is therefore an involution. -/
theorem color_not_involutive :
    Color.not .White = .Black ∧ Color.not .Black = .White ∧
    ∀ c : Color, c.not.not = c :=
  ⟨rfl, rfl, fun c => by cases c <;> rfl⟩

/-- Claim C7: `Display` renders `Color::White` as `"White"`, `Color::Black` as
`"Black"`, `Move::Piece(from, to)` as `"<from> to <to>"` using the squares'
text, `KingSideCastle` as `"O-O"`, `QueenSideCastle` as `"O-O-O"` and
`Resign` as `"Resign"`. -/
theorem display_renders_text :
    Color.display .White = "White" ∧ Color.display .Black = "Black" ∧
    (∀ a b : Position, Move.display (.Piece a b) =
      String.mk (a.toChars ++ ' ' :: 't' :: 'o' :: ' ' :: b.toChars)) ∧
    Move.display .KingSideCastle = "O-O" ∧
    Move.display .QueenSideCastle = "O-O-O" ∧
    Move.display .Resign = "Resign" := by
  refine ⟨rfl, rfl, ?_, rfl, rfl, rfl⟩
  intro a b
  show String.mk a.toChars ++ " to " ++ String.mk b.toChars = _
  rw [show (" to " : String) = String.mk [' ', 't', 'o', ' '] from rfl,
    mk_append, mk_append]
  exact congrArg String.mk (by simp)

/-- Claim C8: move parsing and move/color display are deterministic — equal
inputs give equal results, with no dependence on any other state. -/
theorem parse_display_deterministic :
    (∀ s t : String, s = t → Move.parse s = Move.parse t) ∧
    (∀ m n : Move, m = n → Move.display m = Move.display n) ∧
    (∀ c d : Color, c = d → Color.display c = Color.display d) :=
  ⟨fun _ _ h => h ▸ rfl, fun _ _ h => h ▸ rfl, fun _ _ h => h ▸ rfl⟩

/-- Witness for C8 at concrete equal inputs. -/
theorem parse_display_deterministic_witness :
    Move.parse "e2 e4" = Move.parse "e2 e4" ∧
    Move.display .Resign = Move.display .Resign ∧
    Color.display .White = Color.display .White :=
  ⟨parse_display_deterministic.1 "e2 e4" "e2 e4" rfl,
   parse_display_deterministic.2.1 .Resign .Resign rfl,
   parse_display_deterministic.2.2 .White .White rfl⟩

/-- Claim C9: parsing ignores surrounding whitespace — every string parses to
the same result as its trimmed form. -/
theorem parse_ignores_surrounding_ws (s : String) :
    Move.parse s = Move.parse (String.mk (trimChars s.data)) := by
  show Move.parseChars s.data = Move.parseChars (trimChars s.data)
  unfold Move.parseChars
  rw [trim_idem]

/-- Claim C10: displaying then re-parsing is the identity for both castling
moves, but the display of `Resign` (capitalised) is rejected by the parser,
which only accepts the lower-case resign tokens. -/
theorem display_parse_round_trip :
    Move.parse (Move.display .KingSideCastle) = .ok .KingSideCastle ∧
    Move.parse (Move.display .QueenSideCastle) = .ok .QueenSideCastle ∧
    Move.parse (Move.display .Resign) = .err "invalid move format `Resign`" := by
  decide

end ChessEngine
